import Mathlib

/-
Verification of the vector-retrieval core of the agentM repository.

The Python sources embedded here:
  * src/agent/tool/local_search/RAG/faiss_build.py        (FaissVectorStorage)
  * src/agent/tools_agent/tools/local_search/RAG/image_faiss_build.py (FaissImageStorage)
  * src/agent/tools_agent/tools/local_search/RAG/kv_storage.py        (KVStorage)
  * src/agent/tools_agent/tools/local_search/RAG/json_process.py      (write_json, sanitizer)
  * src/agent/tool/local_search/RAG/rag_main.py           (VanillaRAG, chunker)
  * src/agent/tool/local_search/rag_tool.py               (VanillaRAGSearchTool)

Modelling conventions:
  * Python dicts are insertion-ordered association lists; `d[k] = v` is `dictSet`
    (replace in place, else append), `d.get k` is `dget`, `d.setdefault` is `dsetdefault`.
  * numpy float32 vectors are lists of rationals; the faiss L2 normalisation and the
    embedding model are taken as function parameters, since their numeric content does
    not affect any of the verified properties.
  * The faiss index is its dimension plus the ordered list of stored vectors
    (`ntotal` = length); the HNSW graph parameters (M, efConstruction, efSearch) do not
    affect the set of stored vectors and are omitted.  `index.search` output is taken as
    a parameter (a list of (score, slot) pairs), since HNSW search is approximate.
  * `async` methods are pure state transformers: every storage method runs under the
    single per-store lock, so a call is one atomic step.
-/

namespace AgentM

/-! ## Definitions (shallow embedding of the source) -/

/-- Python dict lookup `d.get(k)` on an insertion-ordered association list. -/
def dget {κ ν : Type} [DecidableEq κ] (k : κ) : List (κ × ν) → Option ν
  | [] => none
  | p :: rest => if p.1 = k then some p.2 else dget k rest

/-- Python dict assignment `d[k] = v`: replace the value in place if the key is
present, otherwise append the pair at the end (insertion order). -/
def dictSet {κ ν : Type} [DecidableEq κ] (k : κ) (v : ν) : List (κ × ν) → List (κ × ν)
  | [] => [(k, v)]
  | p :: rest => if p.1 = k then (k, v) :: rest else p :: dictSet k v rest

/-- Python `d.setdefault(k, v)`: append `(k, v)` only when the key is absent. -/
def dsetdefault {κ ν : Type} [DecidableEq κ] (k : κ) (v : ν) (d : List (κ × ν)) :
    List (κ × ν) :=
  if (dget k d).isSome then d else d ++ [(k, v)]

/-- Python `d.update(d2)`: fold `dictSet` over the entries of `d2`. -/
def dictUpdate {κ ν : Type} [DecidableEq κ] (d d2 : List (κ × ν)) : List (κ × ν) :=
  d2.foldl (fun acc p => dictSet p.1 p.2 acc) d

/-- Vector components are rationals; normalisation and embedding are parameters. -/
abbrev Vec := List ℚ

/-- A faiss `IndexHNSWFlat`: its dimension `d` and the stored vectors in insertion
order (`ntotal` = `vectors.length`).  Graph parameters are omitted (see header). -/
structure FaissIndex where
  d : Nat
  vectors : List Vec
deriving DecidableEq

/-- `_create_hnsw_index`: a fresh empty index of the declared dimension. -/
def createHnswIndex (dim : Nat) : FaissIndex := { d := dim, vectors := [] }

/-- One slot's metadata entry: the `meta_fields` subset copied from the record,
`__id__`, `created_at` and `__vector__`. -/
structure Meta where
  fields : List (String × String)
  id : String
  createdAt : Nat
  vector : Vec
deriving DecidableEq

/-- In-memory state of a faiss storage: the index plus the `_id_to_meta` dict
(slot number -> metadata, insertion-ordered as a Python dict). -/
structure FaissState where
  index : FaissIndex
  idToMeta : List (Nat × Meta)
deriving DecidableEq

/-! ### initialize (C1) -/

/-- What `initialize` finds on disk: the index file (absent / unreadable / loaded)
and the metadata sidecar in the same three states. -/
structure DiskState where
  indexFile : Option (Except Unit FaissIndex)
  metaFile : Option (Except Unit (List (Nat × Meta)))

/-- The body of `FaissVectorStorage.initialize` (faiss_build.py lines 70-95): on a
dimension mismatch the loaded index is replaced by a fresh empty one; metadata is
loaded afterwards; any load exception resets both to empty. -/
def textInit (dim : Nat) (disk : DiskState) : FaissIndex × List (Nat × Meta) :=
  match disk.indexFile with
  | none => (createHnswIndex dim, [])
  | some (Except.error _) => (createHnswIndex dim, [])
  | some (Except.ok ix) =>
    let ix1 := if ix.d ≠ dim then createHnswIndex dim else ix
    match disk.metaFile with
    | none => (ix1, [])
    | some (Except.error _) => (createHnswIndex dim, [])
    | some (Except.ok m) => (ix1, m)

/-- The body of `FaissImageStorage.initialize` (image_faiss_build.py lines 67-94):
identical load logic, except that the dimension-mismatch branch only logs the
warning and keeps the loaded index in place. -/
def imageInit (dim : Nat) (disk : DiskState) : FaissIndex × List (Nat × Meta) :=
  match disk.indexFile with
  | none => (createHnswIndex dim, [])
  | some (Except.error _) => (createHnswIndex dim, [])
  | some (Except.ok ix) =>
    match disk.metaFile with
    | none => (ix, [])
    | some (Except.error _) => (createHnswIndex dim, [])
    | some (Except.ok m) => (ix, m)

/-- `FaissVectorStorage._find_faiss_id` (faiss_build.py lines 181-190): linear scan
of `_id_to_meta` for the first slot whose `__id__`, `source_path` or `source_id`
equals the given custom id. -/
def findFaissId (st : FaissState) (customId : String) : Option Nat :=
  (st.idToMeta.find? fun p =>
    decide (p.2.id = customId ∨ dget "source_path" p.2.fields = some customId ∨
      dget "source_id" p.2.fields = some customId)).map Prod.fst

/-- `FaissImageStorage._find_faiss_id` (image_faiss_build.py lines 112-116): the
image variant matches on `__id__` only. -/
def imageFindFaissId (st : FaissState) (customId : String) : Option Nat :=
  (st.idToMeta.find? fun p => decide (p.2.id = customId)).map Prod.fst

/-- `_remove_faiss_ids` (faiss_build.py lines 192-211) and `_remove_fasii_by_id`
(image_faiss_build.py lines 118-140): keep every slot not listed, rebuild a fresh
index from the kept rows' stored `__vector__` (re-normalised), and renumber the
kept metadata densely from 0 in the original iteration order. -/
def removeFaissIds (normalize : Vec → Vec) (faissIds : List Nat) (st : FaissState) :
    FaissState :=
  let kept := st.idToMeta.filter fun p => decide (p.1 ∉ faissIds)
  { index := { d := st.index.d, vectors := kept.map fun p => normalize p.2.vector },
    idToMeta := kept.enum.map fun q => (q.1, q.2.2) }

/-- The Python batch split `[xs[i : i + b] for i in range(0, len(xs), b)]`.  The
source always uses a positive batch size (128 for text, 8 for images, env
override clamped to at least 8); the `b = 0` guard is unreachable there. -/
def chunkBatches {α : Type} (b : Nat) : List α → List (List α)
  | [] => []
  | x :: xs =>
    if b = 0 then [x :: xs]
    else (x :: xs).take b :: chunkBatches b ((x :: xs).drop b)
termination_by l => l.length
decreasing_by
  rename_i h
  simp only [List.length_drop, List.length_cons]
  omega

/-- One incoming record of an upsert batch: the embeddable payload (`content` for
text, the `images` path for images) plus the remaining metadata fields. -/
structure Record where
  payload : String
  fields : List (String × String)
deriving DecidableEq

/-- The metadata built per record at the top of `upsert`: the `meta_fields` subset
of the record plus `__id__` and `created_at` (`__vector__` filled in later). -/
def buildMeta (metaFields : List String) (now : Nat) (k : String) (r : Record) :
    Meta :=
  { fields := r.fields.filter fun p => metaFields.contains p.1,
    id := k, createdAt := now, vector := [] }

/-- Outcome of an upsert call: the new state, the returned id list, and whether
`_save_faiss_index` ran (anything reached disk). -/
structure UpsertResult where
  state : FaissState
  returned : List String
  persisted : Bool
deriving DecidableEq

/-- `FaissVectorStorage.upsert` (faiss_build.py lines 108-178): build metadata,
embed the contents in batches, abort on a length mismatch, remove slots whose
`__id__` (or alias field) matches an incoming id, then append the normalised
vectors at `ntotal` and record slot -> metadata. -/
def upsert (normalize : Vec → Vec) (embed : List String → List Vec)
    (batchSize : Nat) (metaFields : List String) (now : Nat)
    (data : List (String × Record)) (st : FaissState) : UpsertResult :=
  if data.isEmpty then ⟨st, [], false⟩
  else
    let contents := data.map fun p => p.2.payload
    let metadatas := data.map fun p => buildMeta metaFields now p.1 p.2
    let embeddings := ((chunkBatches batchSize contents).map embed).flatten
    if embeddings.length ≠ metadatas.length then ⟨st, [], false⟩
    else
      let normEmbs := embeddings.map normalize
      let needRemove := metadatas.filterMap fun m => findFaissId st m.id
      let st1 := if needRemove.isEmpty then st
        else removeFaissIds normalize needRemove st
      let start := st1.index.vectors.length
      ⟨⟨{ d := st1.index.d, vectors := st1.index.vectors ++ normEmbs },
          metadatas.enum.foldl
            (fun acc q =>
              dictSet (start + q.1) { q.2 with vector := normEmbs.getD q.1 [] } acc)
            st1.idToMeta⟩,
        metadatas.map Meta.id, true⟩

/-- `FaissImageStorage.upsert` (image_faiss_build.py lines 144-231): same shape as
the text upsert except that each batch is normalised right after embedding, and
duplicate detection uses the image `_find_faiss_id` (`__id__` only). -/
def imageUpsert (normalize : Vec → Vec) (embed : List String → List Vec)
    (batchSize : Nat) (metaFields : List String) (now : Nat)
    (data : List (String × Record)) (st : FaissState) : UpsertResult :=
  if data.isEmpty then ⟨st, [], false⟩
  else
    let images := data.map fun p => p.2.payload
    let metadatas := data.map fun p => buildMeta metaFields now p.1 p.2
    let embeddings :=
      ((chunkBatches batchSize images).map fun b2 => (embed b2).map normalize).flatten
    if embeddings.length ≠ metadatas.length then ⟨st, [], false⟩
    else
      let needRemove := metadatas.filterMap fun m => imageFindFaissId st m.id
      let st1 := if needRemove.isEmpty then st
        else removeFaissIds normalize needRemove st
      let start := st1.index.vectors.length
      ⟨⟨{ d := st1.index.d, vectors := st1.index.vectors ++ embeddings },
          metadatas.enum.foldl
            (fun acc q =>
              dictSet (start + q.1) { q.2 with vector := embeddings.getD q.1 [] } acc)
            st1.idToMeta⟩,
        metadatas.map Meta.id, true⟩

/-- `FaissVectorStorage.delete` (faiss_build.py lines 251-263): resolve each id to
a slot by linear scan, skip the missing ones, and rebuild only when something was
found. -/
def deleteIds (normalize : Vec → Vec) (ids : List String) (st : FaissState) :
    FaissState :=
  let toRemove := ids.filterMap (findFaissId st)
  if toRemove.isEmpty then st else removeFaissIds normalize toRemove st

/-- A record returned by `get_by_id`: the metadata minus `__vector__`, plus the
`id` and `created_at` projections. -/
structure GetResult where
  fields : List (String × String)
  id : String
  createdAt : Nat
deriving DecidableEq

def metaToGetResult (m : Meta) : GetResult :=
  { fields := m.fields, id := m.id, createdAt := m.createdAt }

/-- `FaissVectorStorage.get_by_id` (faiss_build.py lines 279-293). -/
def fGetById (st : FaissState) (id0 : String) : Option GetResult :=
  match findFaissId st id0 with
  | none => none
  | some fid => (dget fid st.idToMeta).map metaToGetResult

/-- `FaissVectorStorage.get_by_ids` (faiss_build.py lines 295-304): early empty
return, else one `get_by_id` per id, appending `None` placeholders. -/
def fGetByIds (st : FaissState) (ids : List String) : List (Option GetResult) :=
  if ids.isEmpty then [] else ids.map (fGetById st)

/-- Python `top_k or self.top_k`: the fallback fires on `None` and on a falsy 0. -/
def pyOrNat (k : Option Nat) (dflt : Nat) : Nat :=
  match k with
  | none => dflt
  | some n => if n = 0 then dflt else n

/-- Default `top_k` of `VanillaRAGSearchTool` (rag_tool.py line 29). -/
def vanillaRagToolTopK : Nat := 3

/-- `VanillaRAG.image_top_k` (rag_main.py line 141).  This field is declared but
never read anywhere in the repository. -/
def vanillaRagImageTopK : Nat := 3

/-- The slice of a query-pipeline result that decides image enrichment: its
`linked_images` list.  The remaining payload fields (score, source, content, ...)
are copied verbatim into the tool entry and do not influence the image queries. -/
structure QueryHit where
  linkedImages : List String

/-- One call made to `FaissImageStorage.query` from the tool layer. -/
structure ImageQueryCall where
  text : String
  topK : Nat

/-- The image-query calls issued by `VanillaRAGSearchTool._arun` (rag_tool.py lines
49-68): one call per result whose `linked_images` is truthy, with the original
query text and `top_k or self.top_k` as the requested count. -/
def arunImageCalls (query : String) (topK : Option Nat) (results : List QueryHit) :
    List ImageQueryCall :=
  results.filterMap fun r =>
    if r.linkedImages.isEmpty then none
    else some { text := query, topK := pyOrNat topK vanillaRagToolTopK }

/-! ### Query filtering (faiss_build.py / image_faiss_build.py) -/

/-- One hit of a query: the slot's metadata minus `__vector__`, plus `id`,
`distance` and `created_at` (empty-dict defaults when the slot is unknown). -/
structure QueryOut where
  fields : List (String × String)
  id : String
  distance : ℚ
  createdAt : Nat
deriving DecidableEq

/-- Building a hit from a `(distance, slot)` pair (faiss_build.py lines 234-243). -/
def mkQueryOut (st : FaissState) (dist : ℚ) (idx : Int) : QueryOut :=
  match (if 0 ≤ idx then dget idx.toNat st.idToMeta else none) with
  | none => { fields := [], id := "", distance := dist, createdAt := 0 }
  | some m =>
    { fields := m.fields, id := m.id, distance := dist, createdAt := m.createdAt }

/-- The result loop of `FaissVectorStorage.query` (faiss_build.py lines 226-244):
walk the zipped `(distance, index)` pairs returned by `index.search`, skipping
the `-1` sentinel and any score strictly below the threshold. -/
def queryResults (st : FaissState) (threshold : ℚ) (search : List (ℚ × Int)) :
    List QueryOut :=
  search.filterMap fun p =>
    if p.2 = -1 ∨ p.1 < threshold then none else some (mkQueryOut st p.1 p.2)

/-- The image hit additionally routes `image_path` and `source_path` through
`_resolve_path` (a filesystem probe, taken as the parameter `resolve`),
image_faiss_build.py lines 304-322. -/
def imageMkQueryOut (resolve : String → String) (st : FaissState) (dist : ℚ)
    (idx : Int) : QueryOut :=
  match (if 0 ≤ idx then dget idx.toNat st.idToMeta else none) with
  | none => { fields := [], id := "", distance := dist, createdAt := 0 }
  | some m =>
    let f1 := if (dget "image_path" m.fields).isSome
      then dictSet "image_path" (resolve ((dget "image_path" m.fields).getD ""))
        m.fields
      else m.fields
    let f2 := if (dget "source_path" f1).isSome
      then dictSet "source_path" (resolve ((dget "source_path" f1).getD "")) f1
      else f1
    { fields := f2, id := m.id, distance := dist, createdAt := m.createdAt }

/-- The result loop of `FaissImageStorage.query` (image_faiss_build.py lines
300-323): identical sentinel and threshold filtering. -/
def imageQueryResults (resolve : String → String) (st : FaissState)
    (threshold : ℚ) (search : List (ℚ × Int)) : List QueryOut :=
  search.filterMap fun p =>
    if p.2 = -1 ∨ p.1 < threshold then none
    else some (imageMkQueryOut resolve st p.1 p.2)

/-! ### KV store (kv_storage.py) -/

/-- A stored field value: timestamps are ints, `_id` and payloads are strings, and
`llm_cache_list` is initialised to the empty list. -/
inductive KVField where
  | i : Int → KVField
  | s : String → KVField
  | emptyList : KVField
deriving DecidableEq

/-- One stored record: a Python dict from field name to value. -/
abbrev KVVal := List (String × KVField)

/-- The in-memory `_data` dict of a `KVStorage`. -/
abbrev KVData := List (String × KVVal)

/-- `KVStorage.upsert` (kv_storage.py lines 111-139): initialise `llm_cache_list`
for `*text_chunk` namespaces, stamp `update_time` (plus `create_time` only for
keys not yet present), set `_id`, then merge into `_data`.  No disk write. -/
def kvUpsert (ns : String) (now : Int) (data : KVData) (st : KVData) : KVData :=
  if data.isEmpty then st
  else
    let processed := data.map fun q =>
      let v1 := if ns.endsWith "text_chunk" ∧ (dget "llm_cache_list" q.2).isNone
        then dictSet "llm_cache_list" KVField.emptyList q.2 else q.2
      let v2 := if (dget q.1 st).isSome
        then dictSet "update_time" (KVField.i now) v1
        else dictSet "update_time" (KVField.i now)
          (dictSet "create_time" (KVField.i now) v1)
      (q.1, dictSet "_id" (KVField.s q.1) v2)
    dictUpdate st processed

/-- The enrichment `get_by_id`/`get_by_ids` apply to a found truthy record: copy,
default `create_time` to 0, default the (misspelled) `updata_time` to 0, set
`_id` (kv_storage.py lines 81-85 and 96-99). -/
def kvEnrich (k : String) (v : KVVal) : KVVal :=
  dictSet "_id" (KVField.s k)
    (dsetdefault "updata_time" (KVField.i 0)
      (dsetdefault "create_time" (KVField.i 0) v))

/-- `KVStorage.get_by_id` (kv_storage.py lines 78-87): a missing key gives `None`;
a present but falsy (empty) record is returned unenriched. -/
def kvGetById (st : KVData) (k : String) : Option KVVal :=
  match dget k st with
  | none => none
  | some v => if v.isEmpty then some v else some (kvEnrich k v)

/-- `KVStorage.get_by_ids` (kv_storage.py lines 90-103): one slot per requested
id, in order, with `None` appended when the id is missing (or its record falsy). -/
def kvGetByIds (st : KVData) (ids : List String) : List (Option KVVal) :=
  ids.map fun k =>
    match dget k st with
    | none => none
    | some v => if v.isEmpty then none else some (kvEnrich k v)

/-! ### JSON persistence and the sanitizer (json_process.py) -/

/-- A JSON string as a list of Unicode code points: Lean `Char` cannot carry the
lone surrogates this code path exists for. -/
abbrev CodeStr := List Nat

/-- Code points in `[\uD800-\uDFFF]` — the lone surrogates UTF-8 encoding
rejects, making the direct `json.dump` raise `UnicodeEncodeError`. -/
def isSurrogate (c : Nat) : Bool := decide (0xD800 ≤ c ∧ c ≤ 0xDFFF)

/-- The code points stripped by `_sanitize_string_for_json` (json_process.py line
22): surrogates plus the sentinels `￾` and `￿`. -/
def isStrippedCode (c : Nat) : Bool :=
  isSurrogate c || decide (c = 0xFFFE) || decide (c = 0xFFFF)

/-- `_sanitize_string_for_json` (json_process.py lines 7-28). -/
def sanitizeString (s : CodeStr) : CodeStr := s.filter fun c => !isStrippedCode c

/-- A JSON value as serialised by `write_json`. -/
inductive JsonVal where
  | str : CodeStr → JsonVal
  | num : Int → JsonVal
  | boolean : Bool → JsonVal
  | null : JsonVal
  | arr : List JsonVal → JsonVal
  | obj : List (CodeStr × JsonVal) → JsonVal

mutual

/-- `SanitizingJSONEncoder._sanitize_for_encoding` (json_process.py lines 56-86):
strip bad code points from every string; dicts are rebuilt key by key, so later
sanitized keys overwrite earlier equal ones exactly as in a Python dict. -/
def sanitizeVal : JsonVal → JsonVal
  | JsonVal.str s => JsonVal.str (sanitizeString s)
  | JsonVal.num n => JsonVal.num n
  | JsonVal.boolean b => JsonVal.boolean b
  | JsonVal.null => JsonVal.null
  | JsonVal.arr xs => JsonVal.arr (sanitizeArr xs)
  | JsonVal.obj fs => JsonVal.obj (dictUpdate [] (sanitizeObj fs))

/-- Elementwise sanitization of a JSON array. -/
def sanitizeArr : List JsonVal → List JsonVal
  | [] => []
  | x :: xs => sanitizeVal x :: sanitizeArr xs

/-- Pairwise sanitization of a JSON object's fields. -/
def sanitizeObj : List (CodeStr × JsonVal) → List (CodeStr × JsonVal)
  | [] => []
  | q :: fs => (sanitizeString q.1, sanitizeVal q.2) :: sanitizeObj fs

end

mutual

/-- Whether serialising would hit the `UnicodeEncodeError`: some string (key or
value) contains a lone surrogate (sentinels `FFFE`/`FFFF` encode fine). -/
def valHasSurrogate : JsonVal → Bool
  | JsonVal.str s => s.any isSurrogate
  | JsonVal.num _ => false
  | JsonVal.boolean _ => false
  | JsonVal.null => false
  | JsonVal.arr xs => arrHasSurrogate xs
  | JsonVal.obj fs => objHasSurrogate fs

/-- Array case of `valHasSurrogate`. -/
def arrHasSurrogate : List JsonVal → Bool
  | [] => false
  | x :: xs => valHasSurrogate x || arrHasSurrogate xs

/-- Object case of `valHasSurrogate`. -/
def objHasSurrogate : List (CodeStr × JsonVal) → Bool
  | [] => false
  | q :: fs => q.1.any isSurrogate || valHasSurrogate q.2 || objHasSurrogate fs

end

/-- `write_json` (json_process.py lines 97-129) applied to the KV store's
top-level `_data` dict: the fast path writes it unchanged and returns `False`;
when a lone surrogate makes the direct dump raise, the file is rewritten through
the sanitizing encoder and `True` is returned so the caller reloads.  The result
is (file content, sanitization applied). -/
def writeJsonTop (data : List (CodeStr × JsonVal)) :
    List (CodeStr × JsonVal) × Bool :=
  if objHasSurrogate data then (dictUpdate [] (sanitizeObj data), true)
  else (data, false)

/-- `KVStorage.index_done_callback` (kv_storage.py lines 51-73): write `_data`;
if sanitization was applied, reload the cleaned file into the shared dict.  The
result is (file content, in-memory dict afterwards). -/
def indexDoneCallback (data : List (CodeStr × JsonVal)) :
    List (CodeStr × JsonVal) × List (CodeStr × JsonVal) :=
  let res := writeJsonTop data
  if res.2 then (res.1, res.1) else (res.1, data)

/-! ### Chunker (rag_main.py lines 216-268) -/

/-- Python `range(0, stop, step)` for a positive step (the source always calls it
with `chunk_token_size - chunk_overlap = 1100` or the embedding batch size). -/
def pyRangeFrom (stop step cur : Nat) : List Nat :=
  if step = 0 then []
  else if cur < stop then cur :: pyRangeFrom stop step (cur + step)
  else []
termination_by stop - cur
decreasing_by omega

/-- Python `range(0, stop, step)`. -/
def pyRange0 (stop step : Nat) : List Nat := pyRangeFrom stop step 0

/-- One chunk record `{content, chunk_length, chunk_index}`. -/
structure Chunk where
  content : String
  chunkLength : Nat
  chunkIndex : Nat
deriving DecidableEq

/-- Python truthiness of the `split_by_character` argument (`None` and the empty
string are falsy). -/
def pyTruthyStr : Option String → Bool
  | none => false
  | some s => !s.isEmpty

/-- `VanillaRAG._chunk_text` (rag_main.py lines 216-268), with the tiktoken
tokenizer abstracted as the `encode`/`decode` parameters.  In character mode the
pieces are enumerated; in token mode `chunk_index` is the window's starting
token offset. -/
def chunkText (encode : String → List Nat) (decode : List Nat → String)
    (content : String) (splitBy : Option String) (onlyChar : Bool)
    (overlap size : Nat) : List Chunk :=
  let token := encode content
  if pyTruthyStr splitBy then
    let sep := splitBy.getD ""
    let chunks := content.splitOn sep
    let newChunk : List (Nat × String) :=
      if onlyChar then chunks.map fun c => (c.trim.length, c)
      else (chunks.map fun c =>
        let ct := encode c
        if size < ct.length then
          (pyRange0 ct.length (size - overlap)).map fun start =>
            (min size (ct.length - start), decode ((ct.drop start).take size))
        else [(ct.length, c)]).flatten
    newChunk.enum.map fun q =>
      { content := q.2.2.trim, chunkLength := q.2.1, chunkIndex := q.1 }
  else
    (pyRange0 token.length (size - overlap)).map fun start =>
      { content := (decode ((token.drop start).take size)).trim,
        chunkLength := min size ((token.drop start).take size).length,
        chunkIndex := start }

/-! ## Theorems -/

theorem dget_dictSet_self {κ ν : Type} [DecidableEq κ] (k : κ) (v : ν)
    (d : List (κ × ν)) : dget k (dictSet k v d) = some v := by
  induction d with
  | nil => simp [dget, dictSet]
  | cons p rest ih =>
    obtain ⟨pk, pv⟩ := p
    by_cases h : pk = k
    · simp [dget, dictSet, h]
    · simp [dget, dictSet, h, ih]

theorem dget_dictSet_ne {κ ν : Type} [DecidableEq κ] {k k2 : κ} (v : ν)
    (d : List (κ × ν)) (hne : k ≠ k2) : dget k (dictSet k2 v d) = dget k d := by
  induction d with
  | nil => simp [dget, dictSet, Ne.symm hne]
  | cons p rest ih =>
    obtain ⟨pk, pv⟩ := p
    by_cases h : pk = k2
    · subst h
      simp [dget, dictSet, Ne.symm hne]
    · by_cases h2 : pk = k
      · simp [dget, dictSet, h, h2, hne]
      · simp [dget, dictSet, h, h2, ih]

theorem dictSet_of_not_mem {κ ν : Type} [DecidableEq κ] {k : κ} (v : ν)
    {d : List (κ × ν)} (h : k ∉ d.map Prod.fst) : dictSet k v d = d ++ [(k, v)] := by
  induction d with
  | nil => simp [dictSet]
  | cons p rest ih =>
    obtain ⟨pk, pv⟩ := p
    simp only [List.map_cons, List.mem_cons] at h
    push_neg at h
    simp [dictSet, Ne.symm h.1, ih h.2]

theorem dget_append_single_ne {κ ν : Type} [DecidableEq κ] {k k2 : κ} (v : ν)
    (d : List (κ × ν)) (hne : k ≠ k2) : dget k (d ++ [(k2, v)]) = dget k d := by
  induction d with
  | nil => simp [dget, Ne.symm hne]
  | cons p rest ih =>
    obtain ⟨pk, pv⟩ := p
    by_cases h : pk = k
    · simp [dget, h]
    · simp [dget, h, ih]

theorem dget_append_single_self {κ ν : Type} [DecidableEq κ] {k : κ} (v : ν)
    {d : List (κ × ν)} (h : dget k d = none) : dget k (d ++ [(k, v)]) = some v := by
  induction d with
  | nil => simp [dget]
  | cons p rest ih =>
    obtain ⟨pk, pv⟩ := p
    by_cases hp : pk = k
    · simp [dget, hp] at h
    · simp [dget, hp] at h ⊢
      exact ih h

theorem dget_dsetdefault_absent {κ ν : Type} [DecidableEq κ] {k : κ} (v : ν)
    {d : List (κ × ν)} (h : dget k d = none) : dget k (dsetdefault k v d) = some v := by
  unfold dsetdefault
  rw [h]
  simpa using dget_append_single_self v h

theorem dget_dsetdefault_present {κ ν : Type} [DecidableEq κ] {k : κ} (v w : ν)
    {d : List (κ × ν)} (h : dget k d = some w) :
    dget k (dsetdefault k v d) = some w := by
  unfold dsetdefault
  rw [h]
  simpa using h

theorem dget_dsetdefault_ne {κ ν : Type} [DecidableEq κ] {k k2 : κ} (v : ν)
    (d : List (κ × ν)) (hne : k ≠ k2) : dget k (dsetdefault k2 v d) = dget k d := by
  unfold dsetdefault
  by_cases h : (dget k2 d).isSome
  · simp [h]
  · simp only [h, if_false]
    exact dget_append_single_ne v d hne

theorem dget_mem {κ ν : Type} [DecidableEq κ] {k : κ} {v : ν} :
    ∀ {d : List (κ × ν)}, dget k d = some v → (k, v) ∈ d := by
  intro d
  induction d with
  | nil => simp [dget]
  | cons p rest ih =>
    intro h
    by_cases hp : p.1 = k
    · simp [dget, hp] at h
      subst h
      simp [← hp]
    · simp [dget, hp] at h
      exact List.mem_cons_of_mem _ (ih h)

/-- Members of a key-preserving per-value map of an association list. -/
theorem dget_map_value {κ ν ν2 : Type} [DecidableEq κ] (f : ν → ν2) (k : κ) :
    ∀ d : List (κ × ν),
      dget k (d.map (fun p => (p.1, f p.2))) = (dget k d).map f := by
  intro d
  induction d with
  | nil => simp [dget]
  | cons p rest ih =>
    by_cases hp : p.1 = k
    · simp [dget, hp]
    · simp [dget, hp, ih]

/-- A left fold of `dictSet` into the empty dict rebuilds the list unchanged when the
keys are already distinct (Python dict construction from unique keys). -/
theorem dictUpdate_nil_of_nodup {κ ν : Type} [DecidableEq κ] :
    ∀ {d : List (κ × ν)}, (d.map Prod.fst).Nodup → dictUpdate [] d = d := by
  have step : ∀ (acc d : List (κ × ν)),
      (∀ p ∈ d, p.1 ∉ acc.map Prod.fst) → (d.map Prod.fst).Nodup →
      dictUpdate acc d = acc ++ d := by
    intro acc d
    induction d generalizing acc with
    | nil => intro _ _; simp [dictUpdate]
    | cons p rest ih =>
      intro hdisj hnd
      have hp : p.1 ∉ acc.map Prod.fst := hdisj p (by simp)
      have h1 : dictSet p.1 p.2 acc = acc ++ [p] := dictSet_of_not_mem p.2 hp
      simp only [List.map_cons, List.nodup_cons] at hnd
      have := ih (acc ++ [p]) ?_ hnd.2
      · simpa [dictUpdate, h1, List.foldl_cons] using this
      · intro q hq
        simp only [List.map_append, List.mem_append, List.map_cons, List.map_nil,
          List.mem_singleton]
        push_neg
        refine ⟨hdisj q (List.mem_cons_of_mem _ hq), ?_⟩
        intro he
        exact hnd.1 (he ▸ List.mem_map_of_mem Prod.fst hq)
  intro d hnd
  simpa using step [] d (by simp) hnd

/-! ## Vector index model (faiss_build.py / image_faiss_build.py) -/

/-- C1: the claim holds for the text index but fails for the image index: on a
persisted image index of dimension 4 with one stored vector, under declared
dimension 8, `FaissImageStorage.initialize` keeps the loaded mismatched index
(its own log line says "reinitializing" but no reinitialisation happens), while
`FaissVectorStorage.initialize` correctly yields an empty index of dimension 8. -/
theorem c1_image_init_keeps_mismatched_index :
    (textInit 8 ⟨some (Except.ok ⟨4, [[(1 : ℚ)]]⟩), none⟩).1 = createHnswIndex 8 ∧
    (imageInit 8 ⟨some (Except.ok ⟨4, [[(1 : ℚ)]]⟩), none⟩).1.d = 4 ∧
    (imageInit 8 ⟨some (Except.ok ⟨4, [[(1 : ℚ)]]⟩), none⟩).1.vectors.length = 1 := by
  refine ⟨?_, rfl, rfl⟩
  simp [textInit, createHnswIndex]

/-! ### Faiss storage operations (upsert / delete / lookup) -/

theorem length_join_map_map (normalize : Vec → Vec) (embed : List String → List Vec) :
    ∀ l : List (List String),
      ((l.map fun b2 => (embed b2).map normalize).flatten).length =
        ((l.map embed).flatten).length := by
  intro l
  induction l with
  | nil => rfl
  | cons b rest ih => simp [List.flatten, ih]

/-- C3: when the number of embedding vectors returned by the embedding function
differs from the number of metadata entries built from the input, both the text
and the image upsert return an empty list, leave the index and the
slot-to-metadata table exactly as they were, and write nothing to disk. -/
theorem c3_upsert_length_mismatch_aborts (normalize : Vec → Vec)
    (embed : List String → List Vec) (batchSize : Nat) (metaFields : List String)
    (now : Nat) (data : List (String × Record)) (st : FaissState)
    (hmis : (((chunkBatches batchSize (data.map fun p => p.2.payload)).map
        embed).flatten).length ≠ data.length) :
    upsert normalize embed batchSize metaFields now data st =
        ⟨st, [], false⟩ ∧
      imageUpsert normalize embed batchSize metaFields now data st =
        ⟨st, [], false⟩ := by
  have hne : ¬data.isEmpty := by
    intro hemp
    rw [List.isEmpty_iff] at hemp
    subst hemp
    simp [chunkBatches] at hmis
  have hmlen : (data.map fun p => buildMeta metaFields now p.1 p.2).length =
      data.length := List.length_map _ _
  constructor
  · unfold upsert
    rw [if_neg (by simp [hne]), if_pos (by rw [hmlen]; exact hmis)]
  · unfold imageUpsert
    rw [if_neg (by simp [hne]),
      if_pos (by
        rw [hmlen, length_join_map_map normalize embed]
        exact hmis)]

/-- Witness for C3: one record whose embedding batch comes back empty. -/
theorem c3_upsert_length_mismatch_aborts_witness :
    ((((chunkBatches 128 ([("a", ⟨"x", []⟩)].map
          fun p : String × Record => p.2.payload)).map
        (fun _ : List String => ([] : List Vec))).flatten).length ≠
        [("a", (⟨"x", []⟩ : Record))].length) ∧
      upsert id (fun _ => []) 128 [] 0 [("a", ⟨"x", []⟩)] ⟨⟨4, []⟩, []⟩ =
        ⟨⟨⟨4, []⟩, []⟩, [], false⟩ := by
  have h : ((((chunkBatches 128 ([("a", (⟨"x", []⟩ : Record))].map
        fun p => p.2.payload)).map
      (fun _ : List String => ([] : List Vec))).flatten).length ≠
      [("a", (⟨"x", []⟩ : Record))].length) := by
    simp [chunkBatches]
  exact ⟨h,
    (c3_upsert_length_mismatch_aborts id (fun _ => []) 128 [] 0
      [("a", ⟨"x", []⟩)] ⟨⟨4, []⟩, []⟩ h).1⟩

/-! ### Tool-layer cross-modal image lookup (C2, rag_tool.py lines 49-68) -/

/-- C2 counterexample: with a caller-supplied `top_k = 10` and one hit carrying a
linked image, the image index is asked for 10 images, exceeding
`image_top_k = 3`; the claim's bound fails. -/
theorem c2_image_topk_counterexample :
    (arunImageCalls "q" (some 10) [⟨["img.png"]⟩]).map ImageQueryCall.topK = [10] ∧
    vanillaRagImageTopK < 10 := by
  constructor
  · rfl
  · decide

/-- C2 amended: for every returned record with non-empty `linked_images` the image
index is queried with the original query text, but the requested count is the
caller's `top_k` if truthy, else the tool default 3 (the same `top_k` as the text
search); the pipeline's `image_top_k` field is never consulted, so the
`image_top_k` bound holds only when the caller supplies no `top_k`. -/
theorem c2_image_query_uses_text_topk (query : String) (topK : Option Nat)
    (results : List QueryHit) (c : ImageQueryCall)
    (hc : c ∈ arunImageCalls query topK results) :
    c.text = query ∧ c.topK = pyOrNat topK vanillaRagToolTopK ∧
      (topK = none → c.topK ≤ vanillaRagImageTopK) := by
  simp only [arunImageCalls, List.mem_filterMap] at hc
  obtain ⟨r, _, hr⟩ := hc
  by_cases h : r.linkedImages.isEmpty
  · simp [h] at hr
  · rw [if_neg (by simp [h])] at hr
    have hr2 := Option.some.inj hr
    subst hr2
    refine ⟨rfl, rfl, ?_⟩
    intro hnone
    subst hnone
    simp [pyOrNat, vanillaRagToolTopK, vanillaRagImageTopK]

/-- Witness for the amended C2 at concrete inputs. -/
theorem enum_map_fst2 {α : Type} (l : List α) :
    l.enum.map Prod.fst = List.range l.length := by
  rw [List.enum_eq_zip_range]
  exact List.map_fst_zip _ _ (by simp)

theorem enum_map_snd2 {α : Type} (l : List α) : l.enum.map Prod.snd = l := by
  rw [List.enum_eq_zip_range]
  exact List.map_snd_zip _ _ (by simp)

theorem find_of_unique {α : Type} (p : α → Bool) :
    ∀ (l : List α) (a : α), a ∈ l → p a = true →
      (∀ b ∈ l, p b = true → b = a) → l.find? p = some a := by
  intro l
  induction l with
  | nil => intro a ha; cases ha
  | cons x xs ih =>
    intro a ha hp hu
    by_cases hx : p x = true
    · have hxa : x = a := hu x (List.mem_cons_self x xs) hx
      subst hxa
      exact List.find?_cons_of_pos _ hx
    · rw [List.find?_cons_of_neg _ (by simpa using hx)]
      rcases List.mem_cons.mp ha with rfl | hmem
      · exact absurd hp hx
      · exact ih a hmem hp fun b hb hpb => hu b (List.mem_cons_of_mem _ hb) hpb

theorem eq_snd_of_nodup_keys {ν : Type} {l : List (Nat × ν)}
    (hnd : (l.map Prod.fst).Nodup) {s : Nat} {v w : ν}
    (h1 : (s, v) ∈ l) (h2 : (s, w) ∈ l) : v = w := by
  have h := List.inj_on_of_nodup_map hnd h1 h2 rfl
  exact congrArg Prod.snd h

theorem nodup_filterMap_of_inj_on {α β : Type} (f : α → Option β) :
    ∀ l : List α, l.Nodup →
      (∀ a ∈ l, ∀ a2 ∈ l, ∀ b, f a = some b → f a2 = some b → a = a2) →
      (l.filterMap f).Nodup := by
  intro l
  induction l with
  | nil => intro _ _; simp
  | cons x xs ih =>
    intro hnd hinj
    simp only [List.nodup_cons] at hnd
    have ihx := ih hnd.2 fun a ha a2 ha2 b h1 h2 =>
      hinj a (List.mem_cons_of_mem _ ha) a2 (List.mem_cons_of_mem _ ha2) b h1 h2
    cases hfx : f x with
    | none => simpa [List.filterMap_cons, hfx] using ihx
    | some b =>
      simp only [List.filterMap_cons, hfx, List.nodup_cons]
      refine ⟨?_, ihx⟩
      intro hbmem
      rcases List.mem_filterMap.mp hbmem with ⟨a2, ha2, hfa2⟩
      have hxa : x = a2 :=
        hinj x (List.mem_cons_self x xs) a2 (List.mem_cons_of_mem _ ha2) b hfx hfa2
      exact hnd.1 (hxa ▸ ha2)

theorem length_filterMap_eq {α β : Type} (f : α → Option β) :
    ∀ l : List α,
      (l.filterMap f).length = (l.filter fun a => (f a).isSome).length := by
  intro l
  induction l with
  | nil => rfl
  | cons x xs ih =>
    cases hfx : f x <;> simp [List.filterMap_cons, List.filter_cons, hfx, ih]

theorem length_filter_key_ne {ν : Type} :
    ∀ (l : List (Nat × ν)) (s : Nat), (l.map Prod.fst).Nodup →
      s ∈ l.map Prod.fst →
      (l.filter fun p => decide (p.1 ≠ s)).length = l.length - 1 := by
  intro l
  induction l with
  | nil => intro s _ hs; simp at hs
  | cons p rest ih =>
    intro s hnd hs
    obtain ⟨pk, pv⟩ := p
    simp only [List.map_cons, List.nodup_cons] at hnd
    simp only [List.map_cons, List.mem_cons] at hs
    by_cases hp : pk = s
    · subst hp
      have hall : ∀ q ∈ rest, (fun q : Nat × ν => decide (q.1 ≠ pk)) q = true := by
        intro q hq
        simp only [decide_eq_true_eq]
        intro he
        exact hnd.1 (he ▸ List.mem_map_of_mem Prod.fst hq)
      rw [List.filter_cons, if_neg (by simp)]
      rw [List.filter_eq_self.mpr hall]
      simp
    · have hs2 : s ∈ rest.map Prod.fst := by
        rcases hs with h | h
        · exact absurd h.symm hp
        · exact h
      have hpos : rest.length ≥ 1 := by
        rcases List.mem_map.mp hs2 with ⟨q, hq, _⟩
        exact List.length_pos.mpr (List.ne_nil_of_mem hq)
      rw [List.filter_cons, if_pos (by simp [hp])]
      simp only [List.length_cons, ih s hnd.2 hs2]
      omega

theorem length_filter_keys_not_mem {ν : Type} :
    ∀ (rm : List Nat) (l : List (Nat × ν)), (l.map Prod.fst).Nodup → rm.Nodup →
      (∀ s ∈ rm, s ∈ l.map Prod.fst) →
      (l.filter fun p => decide (p.1 ∉ rm)).length = l.length - rm.length := by
  intro rm
  induction rm with
  | nil => intro l _ _ _; simp
  | cons s rest ih =>
    intro l hnd hrm hsub
    simp only [List.nodup_cons] at hrm
    have hsplit : (l.filter fun p => decide (p.1 ∉ s :: rest)) =
        ((l.filter fun p => decide (p.1 ≠ s)).filter
          fun p => decide (p.1 ∉ rest)) := by
      rw [List.filter_filter]
      apply List.filter_congr
      intro a _
      simp only [List.mem_cons, not_or, decide_not, ne_eq]
      cases hcs : decide (a.1 = s) <;> cases hcr : decide (a.1 ∈ rest) <;>
        simp_all
    have hnd2 : ((l.filter fun p => decide (p.1 ≠ s)).map Prod.fst).Nodup :=
      ((List.filter_sublist l).map Prod.fst).nodup hnd
    have hsub2 : ∀ t ∈ rest,
        t ∈ (l.filter fun p => decide (p.1 ≠ s)).map Prod.fst := by
      intro t ht
      rcases List.mem_map.mp (hsub t (List.mem_cons_of_mem _ ht)) with ⟨q, hq, hqt⟩
      have hqm : q ∈ l.filter fun p => decide (p.1 ≠ s) := by
        rw [List.mem_filter]
        refine ⟨hq, ?_⟩
        simp only [ne_eq, decide_eq_true_eq]
        intro he
        have hts : t = s := by rw [← hqt, he]
        exact hrm.1 (hts ▸ ht)
      exact hqt ▸ List.mem_map_of_mem Prod.fst hqm
    have hsmem : s ∈ l.map Prod.fst := hsub s (List.mem_cons_self s rest)
    have hslen : 1 ≤ l.length := by
      rcases List.mem_map.mp hsmem with ⟨q, hq, _⟩
      exact List.length_pos.mpr (List.ne_nil_of_mem hq)
    rw [hsplit, ih _ hnd2 hrm.2 hsub2, length_filter_key_ne l s hnd hsmem]
    simp only [List.length_cons]
    omega

theorem mem_snd_removeFaissIds (normalize : Vec → Vec) (rm : List Nat)
    (st : FaissState) :
    ∀ q ∈ (removeFaissIds normalize rm st).idToMeta,
      ∃ p ∈ st.idToMeta, p.2 = q.2 ∧ decide (p.1 ∉ rm) = true := by
  intro q hq
  unfold removeFaissIds at hq
  simp only at hq
  rcases List.mem_map.mp hq with ⟨r, hr, hrq⟩
  have hr2 : r.2 ∈ st.idToMeta.filter fun p => decide (p.1 ∉ rm) := by
    have hget := List.mem_enum_iff_getElem?.mp hr
    exact List.getElem?_mem hget
  have hkept := List.mem_filter.mp hr2
  exact ⟨r.2, hkept.1, by simpa using congrArg Prod.snd hrq, hkept.2⟩

theorem removeFaissIds_fst (normalize : Vec → Vec) (rm : List Nat)
    (st : FaissState) :
    (removeFaissIds normalize rm st).idToMeta.map Prod.fst =
      List.range (removeFaissIds normalize rm st).idToMeta.length := by
  unfold removeFaissIds
  simp only
  rw [List.map_map]
  have h1 : (Prod.fst ∘ fun q : Nat × (Nat × Meta) => (q.1, q.2.2)) =
      (Prod.fst : Nat × (Nat × Meta) → Nat) := rfl
  rw [h1, enum_map_fst2]
  simp

theorem removeFaissIds_snd (normalize : Vec → Vec) (rm : List Nat)
    (st : FaissState) :
    (removeFaissIds normalize rm st).idToMeta.map Prod.snd =
      (st.idToMeta.filter fun p => decide (p.1 ∉ rm)).map Prod.snd := by
  unfold removeFaissIds
  simp only
  rw [List.map_map]
  have h1 : (Prod.snd ∘ fun q : Nat × (Nat × Meta) => (q.1, q.2.2)) =
      (Prod.snd ∘ (Prod.snd : Nat × (Nat × Meta) → Nat × Meta)) := rfl
  rw [h1, ← List.map_map, enum_map_snd2]

theorem removeFaissIds_lengths (normalize : Vec → Vec) (rm : List Nat)
    (st : FaissState) :
    (removeFaissIds normalize rm st).idToMeta.length =
        (st.idToMeta.filter fun p => decide (p.1 ∉ rm)).length ∧
      (removeFaissIds normalize rm st).index.vectors.length =
        (st.idToMeta.filter fun p => decide (p.1 ∉ rm)).length := by
  unfold removeFaissIds
  simp

theorem findFaissId_eq_of_unique (st : FaissState) (id0 : String)
    (pr : Nat × Meta) (hmem : pr ∈ st.idToMeta) (hid : pr.2.id = id0)
    (huniq : (st.idToMeta.map fun p => p.2.id).Nodup)
    (halias : ∀ p ∈ st.idToMeta,
      dget "source_path" p.2.fields ≠ some id0 ∧
        dget "source_id" p.2.fields ≠ some id0) :
    findFaissId st id0 = some pr.1 := by
  unfold findFaissId
  rw [find_of_unique _ st.idToMeta pr hmem (by simp [hid]) ?_]
  · rfl
  · intro b hb hpb
    simp only [decide_eq_true_eq] at hpb
    rcases hpb with h | h | h
    · exact List.inj_on_of_nodup_map huniq hb hmem (by rw [h, hid])
    · exact absurd h (halias b hb).1
    · exact absurd h (halias b hb).2

theorem findFaissId_eq_none_of_absent (st : FaissState) (id0 : String)
    (hnone : ∀ p ∈ st.idToMeta, p.2.id ≠ id0)
    (halias : ∀ p ∈ st.idToMeta,
      dget "source_path" p.2.fields ≠ some id0 ∧
        dget "source_id" p.2.fields ≠ some id0) :
    findFaissId st id0 = none := by
  unfold findFaissId
  have h : st.idToMeta.find? (fun p =>
      decide (p.2.id = id0 ∨ dget "source_path" p.2.fields = some id0 ∨
        dget "source_id" p.2.fields = some id0)) = none := by
    rw [List.find?_eq_none]
    intro p hp
    simp only [decide_eq_true_eq]
    rintro (h | h | h)
    · exact hnone p hp h
    · exact (halias p hp).1 h
    · exact (halias p hp).2 h
  rw [h]
  rfl

/-- Every id an upsert or delete resolves comes from an entry carrying it. -/
theorem findFaissId_some_spec (st : FaissState) (id0 : String) (s : Nat)
    (hf : findFaissId st id0 = some s)
    (halias : ∀ p ∈ st.idToMeta,
      dget "source_path" p.2.fields ≠ some id0 ∧
        dget "source_id" p.2.fields ≠ some id0) :
    ∃ pr ∈ st.idToMeta, pr.1 = s ∧ pr.2.id = id0 := by
  unfold findFaissId at hf
  rcases Option.map_eq_some'.mp hf with ⟨pr, hpr, hs⟩
  have hmem := List.mem_of_find?_eq_some hpr
  have hp := List.find?_some hpr
  simp only [decide_eq_true_eq] at hp
  rcases hp with h | h | h
  · exact ⟨pr, hmem, hs, h⟩
  · exact absurd h (halias pr hmem).1
  · exact absurd h (halias pr hmem).2

/-- C5: after `delete`, `ntotal` equals the previous count minus the number of
deleted ids that were present, no deleted id is retrievable by `get_by_id`, and
the surviving entries occupy dense slots `0..k-1` in ascending original-slot
order (the original metadata order with the removed slots filtered out). -/
theorem c5_delete_semantics (normalize : Vec → Vec) (ids : List String)
    (st : FaissState)
    (hdense : st.idToMeta.map Prod.fst = List.range st.idToMeta.length)
    (hsize : st.index.vectors.length = st.idToMeta.length)
    (hids : ids.Nodup)
    (huniq : (st.idToMeta.map fun p => p.2.id).Nodup)
    (halias : ∀ p ∈ st.idToMeta, ∀ id0 ∈ ids,
      dget "source_path" p.2.fields ≠ some id0 ∧
        dget "source_id" p.2.fields ≠ some id0) :
    (deleteIds normalize ids st).index.vectors.length =
        st.index.vectors.length -
          (ids.filter fun id0 => (findFaissId st id0).isSome).length ∧
      (∀ id0 ∈ ids, fGetById (deleteIds normalize ids st) id0 = none) ∧
      (deleteIds normalize ids st).idToMeta.map Prod.fst =
        List.range (deleteIds normalize ids st).idToMeta.length ∧
      (deleteIds normalize ids st).idToMeta.map Prod.snd =
        (st.idToMeta.filter fun p =>
          decide (p.1 ∉ ids.filterMap (findFaissId st))).map Prod.snd := by
  have hkeysnd : (st.idToMeta.map Prod.fst).Nodup := by
    rw [hdense]
    exact List.nodup_range _
  have hfound : ∀ id0 ∈ ids, ∀ s, findFaissId st id0 = some s →
      ∃ pr ∈ st.idToMeta, pr.1 = s ∧ pr.2.id = id0 := by
    intro id0 hid0 s hf
    exact findFaissId_some_spec st id0 s hf fun p hp => halias p hp id0 hid0
  have hrmsub : ∀ s ∈ ids.filterMap (findFaissId st), s ∈ st.idToMeta.map Prod.fst := by
    intro s hs
    rcases List.mem_filterMap.mp hs with ⟨id0, hid0, hf⟩
    rcases hfound id0 hid0 s hf with ⟨pr, hpr, hprs, _⟩
    exact hprs ▸ List.mem_map_of_mem Prod.fst hpr
  have hrmnd : (ids.filterMap (findFaissId st)).Nodup := by
    apply nodup_filterMap_of_inj_on _ ids hids
    intro a ha a2 ha2 s hfa hfa2
    rcases hfound a ha s hfa with ⟨pr, hpr, hprs, hpra⟩
    rcases hfound a2 ha2 s hfa2 with ⟨pr2, hpr2, hpr2s, hpr2a⟩
    have hpr12 : pr.2 = pr2.2 := by
      apply eq_snd_of_nodup_keys hkeysnd (s := s)
      · rw [← hprs]
        simpa using hpr
      · rw [← hpr2s]
        simpa using hpr2
    rw [← hpra, hpr12, hpr2a]
  by_cases hrm : (ids.filterMap (findFaissId st)).isEmpty
  · have hrmnil : ids.filterMap (findFaissId st) = [] := by
      simpa [List.isEmpty_iff] using hrm
    have hstay : deleteIds normalize ids st = st := by
      unfold deleteIds
      simp [hrm]
    have habsent : ∀ id0 ∈ ids, findFaissId st id0 = none := by
      intro id0 hid0
      cases hcase : findFaissId st id0 with
      | none => rfl
      | some s =>
        exfalso
        have hmem : s ∈ ids.filterMap (findFaissId st) :=
          List.mem_filterMap.mpr ⟨id0, hid0, hcase⟩
        rw [hrmnil] at hmem
        cases hmem
    refine ⟨?_, ?_, ?_, ?_⟩
    · rw [hstay]
      have hfil : (ids.filter fun id0 => (findFaissId st id0).isSome) = [] := by
        rw [List.filter_eq_nil_iff]
        intro a ha
        simp [habsent a ha]
      rw [hfil]
      simp
    · intro id0 hid0
      rw [hstay]
      unfold fGetById
      rw [habsent id0 hid0]
    · rw [hstay]
      exact hdense
    · rw [hstay, hrmnil]
      have hall : ∀ p ∈ st.idToMeta,
          (fun p : Nat × Meta => decide (p.1 ∉ ([] : List Nat))) p = true := by
        simp
      rw [List.filter_eq_self.mpr hall]
  · have hdel : deleteIds normalize ids st =
        removeFaissIds normalize (ids.filterMap (findFaissId st)) st := by
      unfold deleteIds
      simp [hrm]
    have hlen := length_filter_keys_not_mem (ids.filterMap (findFaissId st))
      st.idToMeta hkeysnd hrmnd hrmsub
    refine ⟨?_, ?_, ?_, ?_⟩
    · rw [hdel,
        (removeFaissIds_lengths normalize (ids.filterMap (findFaissId st)) st).2,
        hlen, hsize, ← length_filterMap_eq (findFaissId st) ids]
    · intro id0 hid0
      rw [hdel]
      unfold fGetById
      have hnonef : findFaissId
          (removeFaissIds normalize (ids.filterMap (findFaissId st)) st) id0 =
          none := by
        apply findFaissId_eq_none_of_absent
        · intro q hq hqid
          rcases mem_snd_removeFaissIds normalize _ st q hq with
            ⟨p, hpmem, hpq, hpkeep⟩
          have hpid : p.2.id = id0 := by rw [hpq]; exact hqid
          have hfp : findFaissId st id0 = some p.1 :=
            findFaissId_eq_of_unique st id0 p hpmem hpid huniq
              fun r hr => halias r hr id0 hid0
          have hpin : p.1 ∈ ids.filterMap (findFaissId st) :=
            List.mem_filterMap.mpr ⟨id0, hid0, hfp⟩
          simp only [decide_eq_true_eq] at hpkeep
          exact hpkeep hpin
        · intro q hq
          rcases mem_snd_removeFaissIds normalize _ st q hq with
            ⟨p, hpmem, hpq, _⟩
          rw [← hpq]
          exact halias p hpmem id0 hid0
      rw [hnonef]
    · rw [hdel]
      exact removeFaissIds_fst normalize _ st
    · rw [hdel]
      exact removeFaissIds_snd normalize _ st

theorem chunkBatches_singleton {α : Type} (b : Nat) (c : α) :
    chunkBatches b [c] = [[c]] := by
  cases b with
  | zero =>
    rw [chunkBatches]
    simp
  | succ b2 =>
    rw [chunkBatches]
    simp only [if_neg (Nat.succ_ne_zero b2), List.take_succ_cons, List.take_nil,
      List.drop_succ_cons, List.drop_nil]
    rw [chunkBatches]

/-- C4: upserting an id that is already present removes the old slot, appends the
new vector, keeps `ntotal` unchanged, and leaves exactly one live metadata entry
for that id, carrying the new record's fields. -/
theorem c4_upsert_same_id_replaces (normalize : Vec → Vec)
    (embed : List String → List Vec) (batchSize : Nat) (metaFields : List String)
    (now : Nat) (id0 : String) (rec0 : Record) (w : Vec) (st : FaissState)
    (pr : Nat × Meta)
    (hdense : st.idToMeta.map Prod.fst = List.range st.idToMeta.length)
    (hsize : st.index.vectors.length = st.idToMeta.length)
    (hmem : pr ∈ st.idToMeta) (hid : pr.2.id = id0)
    (huniq : (st.idToMeta.map fun p => p.2.id).Nodup)
    (halias : ∀ p ∈ st.idToMeta,
      dget "source_path" p.2.fields ≠ some id0 ∧
        dget "source_id" p.2.fields ≠ some id0)
    (hembed : embed [rec0.payload] = [w]) :
    (upsert normalize embed batchSize metaFields now [(id0, rec0)] st
      ).state.index.vectors.length = st.index.vectors.length ∧
      ((upsert normalize embed batchSize metaFields now [(id0, rec0)] st
        ).state.idToMeta.filter fun p => decide (p.2.id = id0)) =
        [(st.idToMeta.length - 1,
          { buildMeta metaFields now id0 rec0 with vector := normalize w })] ∧
      (upsert normalize embed batchSize metaFields now [(id0, rec0)] st
        ).returned = [id0] := by
  have hkeysnd : (st.idToMeta.map Prod.fst).Nodup := by
    rw [hdense]
    exact List.nodup_range _
  have hfind : findFaissId st id0 = some pr.1 :=
    findFaissId_eq_of_unique st id0 pr hmem hid huniq halias
  have hnpos : 1 ≤ st.idToMeta.length :=
    List.length_pos.mpr (List.ne_nil_of_mem hmem)
  have hconv : (st.idToMeta.filter fun p => decide (p.1 ∉ [pr.1])) =
      st.idToMeta.filter fun p => decide (p.1 ≠ pr.1) := by
    apply List.filter_congr
    intro a _
    simp
  have hkept : (st.idToMeta.filter fun p => decide (p.1 ∉ [pr.1])).length =
      st.idToMeta.length - 1 := by
    rw [hconv]
    exact length_filter_key_ne st.idToMeta pr.1 hkeysnd
      (List.mem_map_of_mem Prod.fst hmem)
  have hlen1 := removeFaissIds_lengths normalize [pr.1] st
  have hmetalen : (removeFaissIds normalize [pr.1] st).idToMeta.length =
      st.idToMeta.length - 1 := by
    rw [hlen1.1, hkept]
  have hveclen : (removeFaissIds normalize [pr.1] st).index.vectors.length =
      st.idToMeta.length - 1 := by
    rw [hlen1.2, hkept]
  have hstartnot : (removeFaissIds normalize [pr.1] st).index.vectors.length ∉
      (removeFaissIds normalize [pr.1] st).idToMeta.map Prod.fst := by
    rw [removeFaissIds_fst]
    intro hin
    have hlt := List.mem_range.mp hin
    rw [hmetalen, ← hveclen] at hlt
    exact lt_irrefl _ hlt
  have hmain : upsert normalize embed batchSize metaFields now [(id0, rec0)] st =
      ⟨⟨{ d := (removeFaissIds normalize [pr.1] st).index.d,
            vectors := (removeFaissIds normalize [pr.1] st).index.vectors ++
              [normalize w] },
          (removeFaissIds normalize [pr.1] st).idToMeta ++
            [((removeFaissIds normalize [pr.1] st).index.vectors.length,
              { buildMeta metaFields now id0 rec0 with vector := normalize w })]⟩,
        [id0], true⟩ := by
    unfold upsert
    rw [if_neg (by simp)]
    simp only [List.map_cons, List.map_nil, chunkBatches_singleton, hembed,
      List.flatten_cons, List.flatten_nil, List.append_nil, List.length_cons,
      List.length_nil]
    rw [if_neg (by simp)]
    simp only [List.filterMap_cons, List.filterMap_nil]
    rw [show findFaissId st (buildMeta metaFields now id0 rec0).id = some pr.1
      from hfind]
    rw [if_neg (by simp)]
    have henum : ([buildMeta metaFields now id0 rec0]).enum =
        [(0, buildMeta metaFields now id0 rec0)] := rfl
    rw [henum]
    simp only [List.foldl_cons, List.foldl_nil, Nat.add_zero]
    rw [dictSet_of_not_mem _ hstartnot]
    rfl
  refine ⟨?_, ?_, ?_⟩
  · rw [hmain]
    simp only [List.length_append, List.length_cons, List.length_nil, hveclen]
    omega
  · rw [hmain]
    simp only [List.filter_append]
    have h1 : ((removeFaissIds normalize [pr.1] st).idToMeta.filter
        fun p => decide (p.2.id = id0)) = [] := by
      rw [List.filter_eq_nil_iff]
      intro q hq
      rcases mem_snd_removeFaissIds normalize [pr.1] st q hq with
        ⟨p, hpmem, hpq, hpkeep⟩
      simp only [decide_eq_true_eq]
      intro hqid
      have hpid : p.2.id = id0 := by rw [hpq]; exact hqid
      have hpeq : p = pr :=
        List.inj_on_of_nodup_map huniq hpmem hmem (by rw [hpid, hid])
      simp only [decide_eq_true_eq, List.mem_singleton] at hpkeep
      exact hpkeep (by rw [hpeq])
    rw [h1]
    simp only [List.nil_append, List.filter_cons, List.filter_nil]
    rw [if_pos (by simp [buildMeta]), hveclen]
  · rw [hmain]

/-- Witness for C4: a one-entry store receives the same id with new content. -/
theorem c4_upsert_same_id_replaces_witness :
    ((0, (⟨[("content", "v1")], "a", 0, [1]⟩ : Meta)) ∈
        [(0, (⟨[("content", "v1")], "a", 0, [1]⟩ : Meta))]) ∧
      (upsert id (fun _ => [[2]]) 128 ["content"] 7 [("a", ⟨"v2", [("content", "v2")]⟩)]
          ⟨⟨1, [[1]]⟩, [(0, ⟨[("content", "v1")], "a", 0, [1]⟩)]⟩
        ).state.index.vectors.length = 1 ∧
      ((upsert id (fun _ => [[2]]) 128 ["content"] 7 [("a", ⟨"v2", [("content", "v2")]⟩)]
          ⟨⟨1, [[1]]⟩, [(0, ⟨[("content", "v1")], "a", 0, [1]⟩)]⟩
        ).state.idToMeta.filter fun p => decide (p.2.id = "a")) =
        [(0, ⟨[("content", "v2")], "a", 7, [2]⟩)] := by
  have h := c4_upsert_same_id_replaces id (fun _ => [[2]]) 128 ["content"] 7 "a"
    ⟨"v2", [("content", "v2")]⟩ [2]
    ⟨⟨1, [[1]]⟩, [(0, ⟨[("content", "v1")], "a", 0, [1]⟩)]⟩
    (0, ⟨[("content", "v1")], "a", 0, [1]⟩)
    (by simp [List.range_succ]) (by simp) (by simp) rfl (by simp)
    (by
      intro p hp
      simp only [List.mem_singleton] at hp
      subst hp
      constructor <;> (intro hcon; simp [dget] at hcon))
    rfl
  refine ⟨by simp, ?_, ?_⟩
  · rw [h.1]
    rfl
  · rw [h.2.1]
    rfl

/-- Witness for C5: two entries, delete the first. -/
theorem c5_delete_semantics_witness :
    ([(0, (⟨[], "a", 0, [1]⟩ : Meta)), (1, ⟨[], "b", 0, [2]⟩)].map Prod.fst =
        List.range 2) ∧
      (["a"] : List String).Nodup ∧
      (deleteIds id ["a"]
          ⟨⟨1, [[1], [2]]⟩, [(0, ⟨[], "a", 0, [1]⟩), (1, ⟨[], "b", 0, [2]⟩)]⟩
        ).index.vectors.length = 1 ∧
      fGetById (deleteIds id ["a"]
          ⟨⟨1, [[1], [2]]⟩, [(0, ⟨[], "a", 0, [1]⟩), (1, ⟨[], "b", 0, [2]⟩)]⟩)
        "a" = none := by
  have h := c5_delete_semantics id ["a"]
    ⟨⟨1, [[1], [2]]⟩, [(0, ⟨[], "a", 0, [1]⟩), (1, ⟨[], "b", 0, [2]⟩)]⟩
    (by simp [List.range_succ]) (by simp) (by simp) (by simp)
    (by intro p hp id0 hid0; constructor <;> (intro hcon; simp [dget] at hp; rcases hp with h1 | h1 <;> simp [h1, dget] at hcon))
  refine ⟨by simp [List.range_succ], by simp, ?_, h.2.1 "a" (by simp)⟩
  have h1 := h.1
  simp only [List.length_cons] at h1 ⊢
  rw [h1]
  norm_num [findFaissId, dget]

/-- C7: in both the text and the image query loop, a candidate scoring exactly
the threshold is kept (inclusive bound), a candidate scoring strictly below it
is dropped, and the `-1` sentinel slot is dropped. -/
theorem c7_query_threshold_filter (st : FaissState) (threshold d : ℚ) (i : Int)
    (rest : List (ℚ × Int)) (resolve : String → String) :
    (i ≠ -1 →
      queryResults st threshold ((threshold, i) :: rest) =
          mkQueryOut st threshold i :: queryResults st threshold rest ∧
        imageQueryResults resolve st threshold ((threshold, i) :: rest) =
          imageMkQueryOut resolve st threshold i ::
            imageQueryResults resolve st threshold rest) ∧
      (d < threshold →
        queryResults st threshold ((d, i) :: rest) =
            queryResults st threshold rest ∧
          imageQueryResults resolve st threshold ((d, i) :: rest) =
            imageQueryResults resolve st threshold rest) ∧
      (queryResults st threshold ((d, -1) :: rest) =
          queryResults st threshold rest ∧
        imageQueryResults resolve st threshold ((d, -1) :: rest) =
          imageQueryResults resolve st threshold rest) := by
  refine ⟨fun hne => ?_, fun hlt => ?_, ?_⟩
  · constructor <;>
      simp [queryResults, imageQueryResults, List.filterMap_cons, hne,
        lt_irrefl]
  · constructor <;>
      simp [queryResults, imageQueryResults, List.filterMap_cons, hlt]
  · constructor <;>
      simp [queryResults, imageQueryResults, List.filterMap_cons]

/-- Witness for C7 at a concrete slot and threshold. -/
theorem c7_query_threshold_filter_witness :
    ((0 : Int) ≠ -1) ∧ ((1 : ℚ) / 4 < 1 / 2) ∧
      queryResults ⟨⟨2, []⟩, []⟩ (1 / 2) [((1 : ℚ) / 2, 0)] =
        [mkQueryOut ⟨⟨2, []⟩, []⟩ (1 / 2) 0] ∧
      queryResults ⟨⟨2, []⟩, []⟩ (1 / 2) [((1 : ℚ) / 4, 0)] = [] ∧
      queryResults ⟨⟨2, []⟩, []⟩ (1 / 2) [((1 : ℚ), -1)] = [] := by
  have hinc := (c7_query_threshold_filter ⟨⟨2, []⟩, []⟩ (1 / 2) (1 / 4) 0 []
    id).1 (by decide)
  have hexc := (c7_query_threshold_filter ⟨⟨2, []⟩, []⟩ (1 / 2) (1 / 4) 0 []
    id).2.1 (by norm_num)
  have hsen := (c7_query_threshold_filter ⟨⟨2, []⟩, []⟩ (1 / 2) 1 0 [] id).2.2
  refine ⟨by decide, by norm_num, ?_, ?_, ?_⟩
  · rw [hinc.1]
    simp [queryResults]
  · rw [hexc.1]
    simp [queryResults]
  · rw [hsen.1]
    simp [queryResults]

theorem pyRangeFrom_getElem (stop step : Nat) (hstep : 0 < step) :
    ∀ (cur k : Nat) (h : k < (pyRangeFrom stop step cur).length),
      (pyRangeFrom stop step cur).get ⟨k, h⟩ = cur + k * step := by
  have main : ∀ (fuel cur : Nat), stop - cur ≤ fuel →
      ∀ (k : Nat) (h : k < (pyRangeFrom stop step cur).length),
        (pyRangeFrom stop step cur).get ⟨k, h⟩ = cur + k * step := by
    intro fuel
    induction fuel with
    | zero =>
      intro cur hle k h
      rw [pyRangeFrom, if_neg (by omega : ¬step = 0),
        if_neg (by omega : ¬cur < stop)] at h
      simp at h
    | succ n ih =>
      intro cur hle k h
      by_cases hc : cur < stop
      · have hunf : pyRangeFrom stop step cur =
            cur :: pyRangeFrom stop step (cur + step) := by
          rw [pyRangeFrom, if_neg (by omega : ¬step = 0), if_pos hc]
        cases k with
        | zero =>
          rw [List.get_of_eq hunf]
          simp
        | succ k2 =>
          have h2 : k2 < (pyRangeFrom stop step (cur + step)).length := by
            rw [hunf] at h
            simpa using h
          rw [List.get_of_eq hunf, List.get_cons_succ,
            ih (cur + step) (by omega) k2 h2]
          ring
      · rw [pyRangeFrom, if_neg (by omega : ¬step = 0), if_neg hc] at h
        simp at h
  intro cur k h
  exact main (stop - cur) cur (le_refl _) k h

/-- C8: `chunk_index` is the enumeration position (0, 1, 2, ...) when a
split-by-character is configured, and the starting token offset of the window
(the k-th chunk sits at `k * (chunk_token_size - chunk_overlap)`) when the whole
token stream is chunked directly. -/
theorem c8_chunk_index_semantics (encode : String → List Nat)
    (decode : List Nat → String) (content : String) (onlyChar : Bool)
    (overlap size : Nat) :
    (∀ splitBy : Option String, pyTruthyStr splitBy = true →
      (chunkText encode decode content splitBy onlyChar overlap size).map
          Chunk.chunkIndex =
        List.range
          (chunkText encode decode content splitBy onlyChar overlap size).length) ∧
      (overlap < size →
        ∀ (k : Nat)
          (h : k <
            (chunkText encode decode content none onlyChar overlap size).length),
          ((chunkText encode decode content none onlyChar overlap size).get
              ⟨k, h⟩).chunkIndex = k * (size - overlap)) := by
  constructor
  · intro splitBy htru
    unfold chunkText
    rw [if_pos htru]
    rw [List.map_map]
    have hcomp : (Chunk.chunkIndex ∘ fun q : Nat × (Nat × String) =>
        ({ content := q.2.2.trim, chunkLength := q.2.1,
           chunkIndex := q.1 } : Chunk)) =
        (Prod.fst : Nat × (Nat × String) → Nat) := rfl
    rw [hcomp, enum_map_fst2]
    simp
  · intro hov k h
    have hstep : 0 < size - overlap := by omega
    have hunf2 : chunkText encode decode content none onlyChar overlap size =
        (pyRange0 (encode content).length (size - overlap)).map fun start =>
          ({ content := (decode (((encode content).drop start).take size)).trim,
             chunkLength := min size (((encode content).drop start).take size).length,
             chunkIndex := start } : Chunk) := rfl
    have hlen : k < (pyRange0 (encode content).length (size - overlap)).length := by
      rw [hunf2] at h
      simpa using h
    rw [List.get_of_eq hunf2, List.get_map]
    show (pyRange0 (encode content).length (size - overlap)).get
      ⟨k, hlen⟩ = k * (size - overlap)
    exact (pyRangeFrom_getElem (encode content).length (size - overlap) hstep
      0 k hlen).trans (Nat.zero_add _)

theorem pyRange0_three_one : pyRange0 3 1 = [0, 1, 2] := by
  rw [pyRange0, pyRangeFrom]
  norm_num
  rw [pyRangeFrom]
  norm_num
  rw [pyRangeFrom]
  norm_num
  rw [pyRangeFrom]
  norm_num

/-- Witness for C8: a semicolon-split text and a directly chunked token stream. -/
theorem c8_chunk_index_semantics_witness :
    pyTruthyStr (some ";") = true ∧ (1 : Nat) < 2 ∧
      (chunkText (fun _ => [0, 1, 2]) (fun _ => "") "a;b" (some ";")
          false 100 1200).map Chunk.chunkIndex =
        List.range ((chunkText (fun _ => [0, 1, 2]) (fun _ => "")
          "a;b" (some ";") false 100 1200).length) ∧
      ((chunkText (fun _ => [0, 1, 2]) (fun _ => "") "abc" none false
          1 2).get ⟨1, by
            simp [chunkText, pyTruthyStr, pyRange0_three_one]⟩
        ).chunkIndex = 1 * (2 - 1) := by
  refine ⟨rfl, by norm_num, ?_, ?_⟩
  · exact (c8_chunk_index_semantics (fun _ => [0, 1, 2]) (fun _ => "")
      "a;b" false 100 1200).1 (some ";") rfl
  · exact (c8_chunk_index_semantics (fun _ => [0, 1, 2]) (fun _ => "")
      "abc" false 1 2).2 (by norm_num) 1 _

theorem dictSet_isEmpty_false {κ ν : Type} [DecidableEq κ] (k : κ) (v : ν)
    (d : List (κ × ν)) : (dictSet k v d).isEmpty = false := by
  cases d with
  | nil => simp [dictSet]
  | cons p rest =>
    by_cases h : p.1 = k <;> simp [dictSet, h]

/-- C9: upserting a key that already exists replaces the stored value wholesale:
only `update_time` is stamped, `create_time` is not carried over from the old
value, every other field comes from the new value, and a subsequent `get_by_id`
returns `create_time` defaulted to 0 unless the new value itself carried one. -/
theorem c9_kv_upsert_overwrites (ns : String) (now : Int) (st : KVData)
    (k : String) (vNew vOld : KVVal) (hpre : dget k st = some vOld) :
    ∃ v2, dget k (kvUpsert ns now [(k, vNew)] st) = some v2 ∧
      dget "update_time" v2 = some (KVField.i now) ∧
      (dget "create_time" vNew = none → dget "create_time" v2 = none) ∧
      dget "_id" v2 = some (KVField.s k) ∧
      (∀ f, f ≠ "update_time" → f ≠ "_id" → f ≠ "llm_cache_list" →
        dget f v2 = dget f vNew) ∧
      (dget "create_time" vNew = none →
        ∃ r, kvGetById (kvUpsert ns now [(k, vNew)] st) k = some r ∧
          dget "create_time" r = some (KVField.i 0)) ∧
      (∀ c, dget "create_time" vNew = some c →
        ∃ r, kvGetById (kvUpsert ns now [(k, vNew)] st) k = some r ∧
          dget "create_time" r = some c) := by
  have hcu : ("create_time" : String) ≠ "update_time" := by decide
  have hci : ("create_time" : String) ≠ "_id" := by decide
  have hcl : ("create_time" : String) ≠ "llm_cache_list" := by decide
  have hcup : ("create_time" : String) ≠ "updata_time" := by decide
  have hunf : kvUpsert ns now [(k, vNew)] st =
      dictSet k
        (dictSet "_id" (KVField.s k)
          (dictSet "update_time" (KVField.i now)
            (if ns.endsWith "text_chunk" ∧ (dget "llm_cache_list" vNew).isNone
              then dictSet "llm_cache_list" KVField.emptyList vNew else vNew)))
        st := by
    unfold kvUpsert
    rw [if_neg (by simp)]
    simp only [List.map_cons, List.map_nil, hpre, Option.isSome_some, if_true]
    unfold dictUpdate
    simp
  have hv1 : ∀ f, f ≠ "llm_cache_list" →
      dget f (if ns.endsWith "text_chunk" ∧ (dget "llm_cache_list" vNew).isNone
        then dictSet "llm_cache_list" KVField.emptyList vNew else vNew) =
      dget f vNew := by
    intro f hf
    by_cases hb : ns.endsWith "text_chunk" ∧ (dget "llm_cache_list" vNew).isNone
    · rw [if_pos hb, dget_dictSet_ne _ _ hf]
    · rw [if_neg hb]
  refine ⟨_, by rw [hunf]; exact dget_dictSet_self k _ st, ?_, ?_, ?_, ?_, ?_, ?_⟩
  · rw [dget_dictSet_ne _ _ (by decide : ("update_time" : String) ≠ "_id"),
      dget_dictSet_self]
  · intro hnew
    rw [dget_dictSet_ne _ _ hci, dget_dictSet_ne _ _ hcu, hv1 _ hcl, hnew]
  · exact dget_dictSet_self _ _ _
  · intro f hfu hfi hfl
    rw [dget_dictSet_ne _ _ hfi, dget_dictSet_ne _ _ hfu, hv1 _ hfl]
  · intro hnew
    have hcv : dget "create_time"
        (dictSet "_id" (KVField.s k)
          (dictSet "update_time" (KVField.i now)
            (if ns.endsWith "text_chunk" ∧ (dget "llm_cache_list" vNew).isNone
              then dictSet "llm_cache_list" KVField.emptyList vNew
              else vNew))) = none := by
      rw [dget_dictSet_ne _ _ hci, dget_dictSet_ne _ _ hcu, hv1 _ hcl, hnew]
    refine ⟨kvEnrich k
        (dictSet "_id" (KVField.s k)
          (dictSet "update_time" (KVField.i now)
            (if ns.endsWith "text_chunk" ∧ (dget "llm_cache_list" vNew).isNone
              then dictSet "llm_cache_list" KVField.emptyList vNew
              else vNew))), ?_, ?_⟩
    · unfold kvGetById
      rw [hunf, dget_dictSet_self]
      simp only [dictSet_isEmpty_false, Bool.false_eq_true, if_false]
    · unfold kvEnrich
      rw [dget_dictSet_ne _ _ hci, dget_dsetdefault_ne _ _ hcup,
        dget_dsetdefault_absent _ hcv]
  · intro c hc
    have hcv : dget "create_time"
        (dictSet "_id" (KVField.s k)
          (dictSet "update_time" (KVField.i now)
            (if ns.endsWith "text_chunk" ∧ (dget "llm_cache_list" vNew).isNone
              then dictSet "llm_cache_list" KVField.emptyList vNew
              else vNew))) = some c := by
      rw [dget_dictSet_ne _ _ hci, dget_dictSet_ne _ _ hcu, hv1 _ hcl, hc]
    refine ⟨kvEnrich k
        (dictSet "_id" (KVField.s k)
          (dictSet "update_time" (KVField.i now)
            (if ns.endsWith "text_chunk" ∧ (dget "llm_cache_list" vNew).isNone
              then dictSet "llm_cache_list" KVField.emptyList vNew
              else vNew))), ?_, ?_⟩
    · unfold kvGetById
      rw [hunf, dget_dictSet_self]
      simp only [dictSet_isEmpty_false, Bool.false_eq_true, if_false]
    · unfold kvEnrich
      rw [dget_dictSet_ne _ _ hci, dget_dsetdefault_ne _ _ hcup,
        dget_dsetdefault_present _ _ hcv]

/-- Witness for C9: overwrite key `a`, whose new value has no `create_time`. -/
theorem c9_kv_upsert_overwrites_witness :
    dget "a" [("a", [("content", KVField.s "v1")])] =
        some [("content", KVField.s "v1")] ∧
      ∃ v2, dget "a" (kvUpsert "demo" 9 [("a", [("content", KVField.s "v2")])]
          [("a", [("content", KVField.s "v1")])]) = some v2 ∧
        dget "update_time" v2 = some (KVField.i 9) ∧
        (dget "create_time" [("content", KVField.s "v2")] = none →
          dget "create_time" v2 = none) := by
  have hpre : dget "a" [("a", [("content", KVField.s "v1")])] =
      some [("content", KVField.s "v1")] := by simp [dget]
  obtain ⟨v2, h1, h2, h3, _⟩ := c9_kv_upsert_overwrites "demo" 9
    [("a", [("content", KVField.s "v1")])] "a" [("content", KVField.s "v2")]
    [("content", KVField.s "v1")] hpre
  exact ⟨hpre, v2, h1, h2, h3⟩

/-- C10: `get_by_ids` on the KV store and on the vector index returns exactly one
slot per requested id, in input order, with `None` placeholders at every missing
id (and, at found KV positions, a record stamped with that very id). -/
theorem c10_get_by_ids_placeholders (st : KVData) (fst2 : FaissState)
    (ids : List String) :
    (kvGetByIds st ids).length = ids.length ∧
      (fGetByIds fst2 ids).length = ids.length ∧
      ∀ (i : Nat), i < ids.length →
        (∀ k, ids[i]? = some k → dget k st = none →
          (kvGetByIds st ids)[i]? = some none) ∧
        (∀ k, ids[i]? = some k → findFaissId fst2 k = none →
          (fGetByIds fst2 ids)[i]? = some none) ∧
        (∀ k v, ids[i]? = some k → (kvGetByIds st ids)[i]? = some (some v) →
          dget "_id" v = some (KVField.s k)) := by
  have hfids : fGetByIds fst2 ids = ids.map (fGetById fst2) := by
    unfold fGetByIds
    by_cases hemp : ids.isEmpty
    · rw [if_pos hemp, List.isEmpty_iff.mp hemp]
      rfl
    · rw [if_neg hemp]
  refine ⟨by simp [kvGetByIds], by simp [hfids], ?_⟩
  intro i hi
  refine ⟨?_, ?_, ?_⟩
  · intro k hk hnone
    unfold kvGetByIds
    rw [List.getElem?_map, hk]
    simp [hnone]
  · intro k hk hnone
    rw [hfids, List.getElem?_map, hk]
    unfold fGetById
    simp [hnone]
  · intro k v hk hv
    unfold kvGetByIds at hv
    rw [List.getElem?_map, hk] at hv
    rw [Option.map_some'] at hv
    have hv2 := Option.some.inj hv
    cases hcase : dget k st with
    | none =>
      rw [hcase] at hv2
      simp at hv2
    | some v0 =>
      rw [hcase] at hv2
      cases hemp2 : v0.isEmpty with
      | true =>
        simp only [hemp2, if_true] at hv2
        simp at hv2
      | false =>
        simp only [hemp2, Bool.false_eq_true, if_false] at hv2
        have hveq := Option.some.inj hv2
        rw [← hveq]
        unfold kvEnrich
        exact dget_dictSet_self _ _ _

/-- Witness for C10: one present id and one missing id. -/
theorem c10_get_by_ids_placeholders_witness :
    (kvGetByIds [("a", [("x", KVField.s "1")])] ["a", "b"]).length = 2 ∧
      (fGetByIds ⟨⟨1, []⟩, []⟩ ["a", "b"]).length = 2 ∧
      (kvGetByIds [("a", [("x", KVField.s "1")])] ["a", "b"])[1]? = some none ∧
      (fGetByIds ⟨⟨1, []⟩, []⟩ ["a", "b"])[1]? = some none := by
  have h := c10_get_by_ids_placeholders [("a", [("x", KVField.s "1")])]
    ⟨⟨1, []⟩, []⟩ ["a", "b"]
  refine ⟨h.1, h.2.1, ?_, ?_⟩
  · exact (h.2.2 1 (by norm_num)).1 "b" rfl (by simp [dget])
  · exact (h.2.2 1 (by norm_num)).2.1 "b" rfl (by simp [findFaissId])

theorem objHasSurrogate_of_mem :
    ∀ (data : List (CodeStr × JsonVal)) (q : CodeStr × JsonVal), q ∈ data →
      valHasSurrogate q.2 = true → objHasSurrogate data = true := by
  intro data
  induction data with
  | nil => intro q hq; cases hq
  | cons p rest ih =>
    intro q hq hs
    rcases List.mem_cons.mp hq with rfl | hmem
    · simp [objHasSurrogate, hs]
    · simp [objHasSurrogate, ih q hmem hs]

theorem sanitizeString_clean (s : CodeStr)
    (h : ∀ c ∈ s, isStrippedCode c = false) : sanitizeString s = s := by
  unfold sanitizeString
  apply List.filter_eq_self.mpr
  intro c hc
  simp [h c hc]

theorem sanitizeObj_eq_map (data : List (CodeStr × JsonVal)) :
    sanitizeObj data =
      data.map fun q => (sanitizeString q.1, sanitizeVal q.2) := by
  induction data with
  | nil => rfl
  | cons q fs ih => simp [sanitizeObj, ih]

theorem sanitizeObj_keys_clean (data : List (CodeStr × JsonVal))
    (hkeys : ∀ key ∈ data.map Prod.fst, ∀ c ∈ key, isStrippedCode c = false) :
    sanitizeObj data = data.map fun q => (q.1, sanitizeVal q.2) := by
  rw [sanitizeObj_eq_map]
  apply List.map_congr_left
  intro q hq
  rw [sanitizeString_clean q.1 (hkeys q.1 (List.mem_map_of_mem Prod.fst hq))]

/-- C6: committing the KV store with a value containing an unpaired surrogate
never raises: the first write attempt's encoding error is caught, the data is
re-serialised with surrogate/sentinel code points stripped from every string,
the in-memory dict is reloaded from the sanitized file (memory equals disk), and
a subsequent lookup of the key returns exactly the sanitized value on disk. -/
theorem c6_kv_sanitize_reload (data : List (CodeStr × JsonVal)) (k : CodeStr)
    (v : JsonVal)
    (hnd : (data.map Prod.fst).Nodup)
    (hkeys : ∀ key ∈ data.map Prod.fst, ∀ c ∈ key, isStrippedCode c = false)
    (hget : dget k data = some v)
    (hsur : valHasSurrogate v = true) :
    (writeJsonTop data).2 = true ∧
      (indexDoneCallback data).2 = (indexDoneCallback data).1 ∧
      dget k (indexDoneCallback data).2 = some (sanitizeVal v) := by
  have hobj : objHasSurrogate data = true :=
    objHasSurrogate_of_mem data (k, v) (dget_mem hget) hsur
  have hsanobj : dictUpdate [] (sanitizeObj data) =
      data.map fun q => (q.1, sanitizeVal q.2) := by
    rw [sanitizeObj_keys_clean data hkeys]
    apply dictUpdate_nil_of_nodup
    have hmk : ((data.map fun q => (q.1, sanitizeVal q.2)).map Prod.fst) =
        data.map Prod.fst := by
      rw [List.map_map]
      rfl
    rw [hmk]
    exact hnd
  have hdisk : (writeJsonTop data).1 =
      data.map fun q => (q.1, sanitizeVal q.2) := by
    unfold writeJsonTop
    rw [if_pos hobj]
    exact hsanobj
  have hwrite2 : (writeJsonTop data).2 = true := by
    unfold writeJsonTop
    rw [if_pos hobj]
  have hcb : indexDoneCallback data =
      ((writeJsonTop data).1, (writeJsonTop data).1) := by
    unfold indexDoneCallback
    simp only [hwrite2, if_true]
  refine ⟨hwrite2, by rw [hcb], ?_⟩
  rw [hcb]
  simp only
  rw [hdisk, dget_map_value sanitizeVal k data, hget]
  rfl

/-- Witness for C6: one record whose value carries the lone surrogate U+D800. -/
theorem c6_kv_sanitize_reload_witness :
    dget [104] [([104], JsonVal.str [55296, 104])] =
        some (JsonVal.str [55296, 104]) ∧
      valHasSurrogate (JsonVal.str [55296, 104]) = true ∧
      (writeJsonTop [([104], JsonVal.str [55296, 104])]).2 = true ∧
      (indexDoneCallback [([104], JsonVal.str [55296, 104])]).2 =
        (indexDoneCallback [([104], JsonVal.str [55296, 104])]).1 ∧
      dget [104] (indexDoneCallback [([104], JsonVal.str [55296, 104])]).2 =
        some (sanitizeVal (JsonVal.str [55296, 104])) := by
  have hget : dget [104] [([104], JsonVal.str [55296, 104])] =
      some (JsonVal.str [55296, 104]) := by
    simp [dget]
  have hsur : valHasSurrogate (JsonVal.str [55296, 104]) = true := by
    simp [valHasSurrogate, isSurrogate]
  have h := c6_kv_sanitize_reload [([104], JsonVal.str [55296, 104])] [104]
    (JsonVal.str [55296, 104]) (by simp)
    (by
      intro key hkey c hc
      simp only [List.map_cons, List.map_nil, List.mem_singleton] at hkey
      subst hkey
      simp only [List.mem_singleton] at hc
      subst hc
      decide)
    hget hsur
  exact ⟨hget, hsur, h⟩

theorem c2_image_query_uses_text_topk_witness :
    ({ text := "q", topK := 3 } : ImageQueryCall) ∈
        arunImageCalls "q" none [⟨["a.png"]⟩] ∧
      ({ text := "q", topK := 3 } : ImageQueryCall).text = "q" ∧
      ({ text := "q", topK := 3 } : ImageQueryCall).topK = pyOrNat none vanillaRagToolTopK ∧
      (none = (none : Option Nat) →
        ({ text := "q", topK := 3 } : ImageQueryCall).topK ≤ vanillaRagImageTopK) := by
  have hmem : ({ text := "q", topK := 3 } : ImageQueryCall) ∈
      arunImageCalls "q" none [⟨["a.png"]⟩] := by
    simp [arunImageCalls, pyOrNat, vanillaRagToolTopK]
  exact ⟨hmem, c2_image_query_uses_text_topk "q" none [⟨["a.png"]⟩] _ hmem⟩

end AgentM
